import Mathlib

/-!
Verification development for the relative-entropy-coding engine of this
repository.  The repository ships a test suite (`rec/coding/tests/test_coder.py`)
for its coding engine and a custom convolution module
(`rec/models/custom_modules/reparameterized_convolutions.py`).  The coding
engine itself (`rec/coding/coder.py`, `rec/coding/beam_search_coder.py`,
`rec/coding/samplers.py`) is not part of the source tree here, so the coding
components are modelled from the specification; the convolution module is
embedded from its source.  Machine floats are modelled as exact rationals
(draws, scores, densities) and as reals where logarithms occur (codelengths,
KL divergences).
-/

/-- Error taxonomy of the coding engine (spec section 7): ConfigurationError
for an invalid budget or dimension, InvalidDistributionError for a
non-positive scale or a length mismatch, SeedMismatchError for an index out of
the valid range on decode. -/
inductive CoderError where
  | configurationError
  | invalidDistributionError
  | seedMismatchError
  deriving DecidableEq

/-- Modelled from the spec: the greedy chunking loop of `PartitionPlanner`
(missing `rec/coding` module, spec section 4.1).  The per-dimension KL values
are taken as an input list of rationals (the transcendental KL formula is
`klDiagNormal` below).  Dimensions are accumulated left to right; the current
partition is closed before it would exceed the budget `B`, and a single
dimension whose own KL exceeds `B` becomes its own over-budget partition.
`cur` holds the dimensions of the open partition in reverse order and
`curSum` their running KL sum. -/
def greedyChunks (B : ℚ) : List ℚ → ℚ → List ℚ → List (List ℚ)
  | cur, _, [] => if cur = [] then [] else [cur.reverse]
  | cur, curSum, k :: rest =>
    if cur = [] then greedyChunks B [k] k rest
    else if curSum + k ≤ B then greedyChunks B (k :: cur) (curSum + k) rest
    else cur.reverse :: greedyChunks B [k] k rest

/-- Modelled from the spec: `PartitionPlanner` entry point (missing
`rec/coding` module, spec section 4.1).  Fails with ConfigurationError when
the dimensionality is zero or the KL budget is non-positive, otherwise
returns the greedy plan. -/
def partitionPlanner (kls : List ℚ) (B : ℚ) : Except CoderError (List (List ℚ)) :=
  if kls.length = 0 ∨ B ≤ 0 then Except.error CoderError.configurationError
  else Except.ok (greedyChunks B [] 0 kls)

/-- Modelled from the spec: per-dimension KL divergence between diagonal
Gaussians (spec section 4.1), `log(sP/sT) + (sT^2 + (mT-mP)^2)/(2 sP^2) - 1/2`. -/
noncomputable def klDiagNormal (mT sT mP sP : ℝ) : ℝ :=
  Real.log (sP / sT) + (sT ^ 2 + (mT - mP) ^ 2) / (2 * sP ^ 2) - 1 / 2

/-- Modelled from the spec: buffer state of one ring buffer of the
`SamplerBufferPool` (missing `rec/coding/samplers.py`, spec section 4.3).
`buf` holds the prefetched draws not yet served, `next` the counter of the
next draw to regenerate on refill. -/
structure BufferState where
  buf : List ℚ
  next : ℕ
  deriving DecidableEq

/-- Modelled from the spec: one buffer refill of `cap` consecutive draws from
the counter-based `DeterministicSampler` stream `gen`, starting at counter
`next` (spec sections 4.2 and 4.3). -/
def refill (gen : ℕ → ℚ) (cap : ℕ) (next : ℕ) : List ℚ :=
  (List.range cap).map fun i => gen (next + i)

/-- Modelled from the spec: serving one logical draw from a
`SamplerBufferPool` buffer (missing `rec/coding/samplers.py`, spec section
4.3).  Serves from the buffer when it is non-empty, otherwise refills from
the deterministic stream and serves the first refilled value (a zero-capacity
buffer degenerates to direct generation). -/
def poolNext (gen : ℕ → ℚ) (cap : ℕ) (s : BufferState) : ℚ × BufferState :=
  match s.buf with
  | v :: rest => (v, { buf := rest, next := s.next })
  | [] =>
    match refill gen cap s.next with
    | [] => (gen s.next, { buf := [], next := s.next + 1 })
    | v :: rest => (v, { buf := rest, next := s.next + cap })

/-- Modelled from the spec: the first `n` logical draws served through a
`SamplerBufferPool` buffer from state `s` (spec section 4.3). -/
def poolStream (gen : ℕ → ℚ) (cap : ℕ) : BufferState → ℕ → List ℚ
  | _, 0 => []
  | s, n + 1 =>
    let r := poolNext gen cap s
    r.1 :: poolStream gen cap r.2 n

/-- A buffer state is valid at logical position `j` when its buffered values
are exactly the next `m` values of the deterministic stream and its refill
counter sits right after them. -/
def PoolValid (gen : ℕ → ℚ) (s : BufferState) (j : ℕ) : Prop :=
  ∃ m, s.buf = (List.range m).map (fun i => gen (j + i)) ∧ s.next = j + m

/-- Modelled from the spec: `VarianceRatioStats`, the process-wide
per-dimension EMA of the target/proposal variance ratio (spec section 3);
the decay factor lies in (0,1) and the ratios start at 1. -/
structure VarianceRatioStats where
  ratios : List ℚ
  decay : ℚ
  deriving DecidableEq

/-- Modelled from the spec: the defined initial value of
`VarianceRatioStats` - ratio 1 for each of the `D` dimensions (spec
section 9). -/
def initStats (D : ℕ) (decay : ℚ) : VarianceRatioStats :=
  { ratios := List.replicate D 1, decay := decay }

/-- Modelled from the spec: the explicit EMA update entry point of
`VarianceRatioStats` (spec sections 3 and 9), blending each stored ratio with
a freshly observed ratio. -/
def VarianceRatioStats.update (s : VarianceRatioStats) (obs : List ℚ) : VarianceRatioStats :=
  { ratios := List.zipWith (fun r o => s.decay * r + (1 - s.decay) * o) s.ratios obs
    decay := s.decay }

/-- Modelled from the spec: the importance ratio `w(x) =
density_T(x)/density_P(x)` used by the rejection coder (spec section 4.4),
over abstract density evaluators. -/
def importanceRatio (densT densP : ℚ → ℚ) (x : ℚ) : ℚ :=
  densT x / densP x

/-- Modelled from the spec: the acceptance test of the `RejectionCoder`
(missing `rec/coding/coder.py` GaussianCoder, spec section 4.4): accept the
pair `(x, u)` iff `u ≤ w(x) / M`. -/
def rsAccept (w : ℚ → ℚ) (M : ℚ) (x u : ℚ) : Bool :=
  decide (u ≤ w x / M)

/-- Modelled from the spec: the rejection loop of the `RejectionCoder`
(missing `rec/coding/coder.py`, spec section 4.4).  Starting at draw counter
`k` with `fuel` draws still allowed, returns the first accepted
`(index, candidate)` pair, or `none` when every allowed draw is rejected. -/
def rsLoop (d : ℕ → ℚ × ℚ) (a : ℚ → ℚ → Bool) : ℕ → ℕ → Option (ℕ × ℚ)
  | _, 0 => none
  | k, fuel + 1 =>
    let xu := d k
    if a xu.1 xu.2 then some (k, xu.1) else rsLoop d a (k + 1) fuel

/-- Modelled from the spec: per-partition encoding of the `RejectionCoder`
(missing `rec/coding/coder.py`, spec sections 4.4 and 4.5).  At most `cap`
draws are taken; when none is accepted the last drawn candidate is force
accepted, reported through the Boolean forced-accept flag rather than an
exception. -/
def encodePartition (d : ℕ → ℚ × ℚ) (a : ℚ → ℚ → Bool) (cap : ℕ) : ℕ × ℚ × Bool :=
  match rsLoop d a 0 cap with
  | some r => (r.1, r.2, false)
  | none => (cap - 1, (d (cap - 1)).1, true)

/-- Modelled from the spec: the per-partition results of a full
`RejectionCoder.encode` pass (missing `rec/coding/coder.py`, spec section
4.4).  The deterministic sampler is keyed by `(seed, partition, draw)`;
partition `p` uses importance weight `w p` and bound `M p`. -/
def rsEncodeParts (sampler : ℕ → ℕ → ℕ → ℚ × ℚ) (w : ℕ → ℚ → ℚ) (M : ℕ → ℚ)
    (seed numP cap : ℕ) : List (ℕ × ℚ × Bool) :=
  (List.range numP).map fun p => encodePartition (sampler seed p) (rsAccept (w p) (M p)) cap

/-- Modelled from the spec: `RejectionCoder.encode`, returning the chosen
index and the accepted candidate for every partition (missing
`rec/coding/coder.py`, spec section 4.4). -/
def rsEncode (sampler : ℕ → ℕ → ℕ → ℚ × ℚ) (w : ℕ → ℚ → ℚ) (M : ℕ → ℚ)
    (seed numP cap : ℕ) : List ℕ × List ℚ :=
  ((rsEncodeParts sampler w M seed numP cap).map (fun r => r.1),
   (rsEncodeParts sampler w M seed numP cap).map (fun r => r.2.1))

/-- Modelled from the spec: the forced-accept metric of
`RejectionCoder.encode` - the number of partitions whose draw cap was
exhausted (spec sections 4.4 and 7: counted, never thrown). -/
def rsForcedCount (sampler : ℕ → ℕ → ℕ → ℚ × ℚ) (w : ℕ → ℚ → ℚ) (M : ℕ → ℚ)
    (seed numP cap : ℕ) : ℕ :=
  ((rsEncodeParts sampler w M seed numP cap).filter (fun r => r.2.2)).length

/-- Modelled from the spec: `RejectionCoder.encode` with the bound `M_p`
derived from the injected `VarianceRatioStats` (spec section 4.4). -/
def rsEncodeWithStats (sampler : ℕ → ℕ → ℕ → ℚ × ℚ) (w : ℕ → ℚ → ℚ)
    (deriveM : VarianceRatioStats → ℕ → ℚ) (stats : VarianceRatioStats)
    (seed numP cap : ℕ) : List ℕ × List ℚ :=
  rsEncode sampler w (deriveM stats) seed numP cap

/-- Modelled from the spec: the draw stream consumed by
`RejectionCoder.encode` for a given seed and partition (spec sections 3
and 4.2). -/
def rsEncodeDraw (sampler : ℕ → ℕ → ℕ → ℚ × ℚ) (seed p k : ℕ) : ℚ × ℚ :=
  sampler seed p k

/-- Modelled from the spec: the draw stream regenerated by
`RejectionCoder.decode` for a given seed and partition (spec sections 3
and 4.2); decode replays the counter-based stream rather than receiving it. -/
def rsDecodeDraw (sampler : ℕ → ℕ → ℕ → ℚ × ℚ) (seed p k : ℕ) : ℚ × ℚ :=
  sampler seed p k

/-- Modelled from the spec: replay loop of `RejectionCoder.decode` (missing
`rec/coding/coder.py`, spec section 4.4), taking the partition counter and
the remaining indices; each partition's sample is the candidate at the
transmitted index, with no acceptance test. -/
def rsDecodeFrom (sampler : ℕ → ℕ → ℕ → ℚ × ℚ) (seed : ℕ) : ℕ → List ℕ → List ℚ
  | _, [] => []
  | p, i :: rest => (sampler seed p i).1 :: rsDecodeFrom sampler seed (p + 1) rest

/-- Modelled from the spec: `RejectionCoder.decode` (missing
`rec/coding/coder.py`, spec section 4.4). -/
def rsDecode (sampler : ℕ → ℕ → ℕ → ℚ × ℚ) (seed : ℕ) (indices : List ℕ) : List ℚ :=
  rsDecodeFrom sampler seed 0 indices

/-- Modelled from the spec: per-partition bit cost of the `RejectionCoder`
for index `i` under bound `M` (missing `rec/coding/coder.py`, spec sections
4.4 and 9): the ideal codelength of the geometric-style index distribution
with acceptance probability `1/M`, namely `-log2((1 - 1/M)^i * (1/M))`. -/
noncomputable def partitionCodelength (M : ℝ) (i : ℕ) : ℝ :=
  -Real.logb 2 ((1 - 1 / M) ^ i * (1 / M))

/-- Modelled from the spec: `RejectionCoder.get_codelength` (missing
`rec/coding/coder.py`, spec section 4.4), summing the per-partition bit costs
under the per-partition bounds `M p`. -/
noncomputable def rsCodelengthFrom (M : ℕ → ℝ) : ℕ → List ℕ → ℝ
  | _, [] => 0
  | p, i :: rest => partitionCodelength (M p) i + rsCodelengthFrom M (p + 1) rest

/-- Modelled from the spec: `RejectionCoder.get_codelength` on a full index
sequence, starting at partition 0. -/
noncomputable def rsGetCodelength (M : ℕ → ℝ) (indices : List ℕ) : ℝ :=
  rsCodelengthFrom M 0 indices

/-- Modelled from the spec: `BeamCoder.get_codelength` (missing
`rec/coding/beam_search_coder.py`, spec section 4.5), accounting `log2 K`
bits for each partition's bounded alphabet `0..K-1`. -/
noncomputable def beamGetCodelength (K : ℕ) (indices : List ℕ) : ℝ :=
  (indices.length : ℝ) * Real.logb 2 (K : ℝ)

/-- Modelled from the spec: `BeamState` of the `BeamCoder` (missing
`rec/coding/beam_search_coder.py`, spec section 3): partial index history,
cumulative score, partial reconstructed sample. -/
structure BeamState where
  history : List ℕ
  score : ℚ
  sample : List ℚ
  deriving DecidableEq

/-- Modelled from the spec: the single empty starting beam with score 0
(spec section 4.5). -/
def initBeam : BeamState :=
  { history := [], score := 0, sample := [] }

/-- Modelled from the spec: extending one live beam at partition `p` with
each of the `K` candidates drawn from the sub-stream keyed by the beam's
index history (missing `rec/coding/beam_search_coder.py`, spec section 4.5).
The score grows by the candidate's log-importance-weight `logw`. -/
def extendBeam (bdraw : ℕ → List ℕ → ℕ → ℚ × ℚ) (logw : ℕ → ℚ → ℚ) (K p : ℕ)
    (b : BeamState) : List BeamState :=
  (List.range K).map fun j =>
    let x := (bdraw p b.history j).1
    { history := b.history ++ [j], score := b.score + logw p x, sample := b.sample ++ [x] }

/-- Modelled from the spec: stable insertion into a score-descending list of
beams; on equal scores the earlier-generated beam (lower candidate index)
stays first, giving deterministic tie breaking (spec section 4.5). -/
def insertByScore (b : BeamState) : List BeamState → List BeamState
  | [] => [b]
  | c :: cs => if b.score < c.score then c :: insertByScore b cs else b :: c :: cs

/-- Modelled from the spec: retain only the top `W` extended beams by
cumulative score, ties broken by generation order (spec section 4.5). -/
def selectTop (W : ℕ) (l : List BeamState) : List BeamState :=
  (l.foldr insertByScore []).take W

/-- Modelled from the spec: one partition step of the beam search - extend
every live beam with `K` candidates and keep the best `W` (missing
`rec/coding/beam_search_coder.py`, spec section 4.5). -/
def beamStep (bdraw : ℕ → List ℕ → ℕ → ℚ × ℚ) (logw : ℕ → ℚ → ℚ) (K W p : ℕ)
    (beams : List BeamState) : List BeamState :=
  selectTop W (beams.flatMap (extendBeam bdraw logw K p))

/-- Modelled from the spec: the full beam search over `numP` partitions in
plan order, starting from the single empty beam (spec section 4.5). -/
def beamSearch (bdraw : ℕ → List ℕ → ℕ → ℚ × ℚ) (logw : ℕ → ℚ → ℚ)
    (K W numP : ℕ) : List BeamState :=
  (List.range numP).foldl (fun beams p => beamStep bdraw logw K W p beams) [initBeam]

/-- Modelled from the spec: `BeamCoder.encode` (missing
`rec/coding/beam_search_coder.py`, spec section 4.5): the highest-scoring
complete beam's index history and concatenated per-partition samples. -/
def beamEncode (bdraw : ℕ → List ℕ → ℕ → ℚ × ℚ) (logw : ℕ → ℚ → ℚ)
    (K W numP : ℕ) : Option (List ℕ × List ℚ) :=
  (beamSearch bdraw logw K W numP).head?.map fun b => (b.history, b.sample)

/-- Modelled from the spec: `BeamCoder.encode` with the sampler keyed by the
seed explicitly (spec section 4.5). -/
def beamEncodeS (bs : ℕ → ℕ → List ℕ → ℕ → ℚ × ℚ) (logw : ℕ → ℚ → ℚ)
    (seed K W numP : ℕ) : Option (List ℕ × List ℚ) :=
  beamEncode (fun p h j => bs seed p h j) logw K W numP

/-- Modelled from the spec: replay loop of `BeamCoder.decode` (missing
`rec/coding/beam_search_coder.py`, spec section 4.5): per transmitted index,
regenerate the sub-stream keyed by the accumulated history - no search is
repeated. -/
def beamDecodeFrom (bdraw : ℕ → List ℕ → ℕ → ℚ × ℚ) : ℕ → List ℕ → List ℕ → List ℚ
  | _, _, [] => []
  | p, h, i :: rest => (bdraw p h i).1 :: beamDecodeFrom bdraw (p + 1) (h ++ [i]) rest

/-- Modelled from the spec: `BeamCoder.decode` (missing
`rec/coding/beam_search_coder.py`, spec section 4.5). -/
def beamDecode (bdraw : ℕ → List ℕ → ℕ → ℚ × ℚ) (indices : List ℕ) : List ℚ :=
  beamDecodeFrom bdraw 0 [] indices

/-- Modelled from the spec: `BeamCoder.decode` with the sampler keyed by the
seed explicitly. -/
def beamDecodeS (bs : ℕ → ℕ → List ℕ → ℕ → ℚ × ℚ) (seed : ℕ) (indices : List ℕ) : List ℚ :=
  beamDecode (fun p h j => bs seed p h j) indices

/-- Consistency of a beam after `n` partitions: its history has one index per
processed partition and replaying its history through the decode loop
reproduces its sample. -/
def BeamConsistent (bdraw : ℕ → List ℕ → ℕ → ℚ × ℚ) (b : BeamState) (n : ℕ) : Prop :=
  b.history.length = n ∧ beamDecodeFrom bdraw 0 [] b.history = b.sample

/-- Python error surfaced by the convolution module; the construction check
raises `ValueError`. -/
inductive PyError where
  | valueError
  deriving DecidableEq

/-- Python value accepted by `conv_utils.normalize_tuple(value, 2, name)`:
either a single integer or a pair of integers. -/
inductive PyIntOrPair where
  | int : ℤ → PyIntOrPair
  | pair : ℤ → ℤ → PyIntOrPair
  deriving DecidableEq

/-- Embeds `conv_utils.normalize_tuple(value, 2, name)` on well-typed inputs:
a single integer is duplicated across both spatial axes, a pair is kept. -/
def normalizeTuple2 : PyIntOrPair → ℤ × ℤ
  | PyIntOrPair.int n => (n, n)
  | PyIntOrPair.pair a b => (a, b)

/-- Embeds the `output_padding` handling of
`ReparameterizedConv2DTranspose.__init__`
(`reparameterized_convolutions.py` lines 359-367): when `output_padding` is
`None` it is stored as is with no check; otherwise it is normalized and a
`ValueError` is raised when, on some spatial axis, the output padding is `>=`
the stride (`self.strides` was normalized by the superclass constructor). -/
def transposeOutputPaddingInit (strides : PyIntOrPair) (outputPadding : Option PyIntOrPair) :
    Except PyError (Option (ℤ × ℤ)) :=
  match outputPadding with
  | none => Except.ok none
  | some op =>
    let s := normalizeTuple2 strides
    let q := normalizeTuple2 op
    if s.1 ≤ q.1 ∨ s.2 ≤ q.2 then Except.error PyError.valueError
    else Except.ok (some q)

/-- Mutable state of a reparameterized convolution layer that the
data-dependent initialization branch touches
(`reparameterized_convolutions.py` lines 64-65, 89-104): the
`_initialized` flag (field `inited`), the `kernel_scale` weight and the
`bias` weight, with tensors abstracted to single rationals. -/
structure ReparamState where
  inited : Bool
  kernelScale : ℚ
  bias : ℚ
  deriving DecidableEq

/-- Embeds the shared body of `ReparameterizedConv.call` (lines 144-199) and
`ReparameterizedConv2DTranspose.call` (lines 409-486) around the
data-dependent initialization branch (lines 171-184 and 463-476).  `conv`
abstracts the convolution of the input with the kernel scaled by
`kernel_scale`; `moments` abstracts `tf.nn.moments` returning batch mean and
variance; `sqrtFn` abstracts `tf.math.sqrt`.  When the `_initialized` flag is
unset the branch batch-normalizes the outputs with
`std = max(sqrt(var), 1e-7)`, assigns `kernel_scale := 1/std` and
`bias := -mean/std`, and sets the flag; afterwards the bias is added
(`use_bias=True` path).  When the flag is set the branch is skipped and the
state is untouched. -/
def reparamCall (conv : ℚ → ℚ → ℚ) (moments : ℚ → ℚ × ℚ) (sqrtFn : ℚ → ℚ)
    (s : ReparamState) (x : ℚ) : ℚ × ReparamState :=
  let out := conv s.kernelScale x
  if s.inited then
    (out + s.bias, s)
  else
    let m := (moments out).1
    let v := (moments out).2
    let std := max (sqrtFn v) (1 / 10000000)
    let s' : ReparamState := { inited := true, kernelScale := 1 / std, bias := -m / std }
    ((out - m) / std + s'.bias, s')

/-- Folds `reparamCall` over a sequence of calls, tracking the layer state
across the layer's lifetime. -/
def reparamRun (conv : ℚ → ℚ → ℚ) (moments : ℚ → ℚ × ℚ) (sqrtFn : ℚ → ℚ)
    (s : ReparamState) (xs : List ℚ) : ReparamState :=
  xs.foldl (fun st x => (reparamCall conv moments sqrtFn st x).2) s

theorem greedyChunks_flatten (B : ℚ) :
    ∀ (rest cur : List ℚ) (curSum : ℚ),
      (greedyChunks B cur curSum rest).flatten = cur.reverse ++ rest := by
  intro rest
  induction rest with
  | nil =>
    intro cur curSum
    by_cases h : cur = []
    · subst h; simp [greedyChunks]
    · simp [greedyChunks, h]
  | cons k rest ih =>
    intro cur curSum
    by_cases h : cur = []
    · subst h; simp [greedyChunks, ih]
    · by_cases h2 : curSum + k ≤ B
      · simp only [greedyChunks, if_neg h, if_pos h2, ih]
        simp
      · simp only [greedyChunks, if_neg h, if_neg h2]
        simp [ih]

theorem greedyChunks_chunk_sound (B : ℚ) :
    ∀ (rest cur : List ℚ) (curSum : ℚ),
      curSum = cur.sum → (2 ≤ cur.length → curSum ≤ B) →
      ∀ c ∈ greedyChunks B cur curSum rest,
        c ≠ [] ∧ (c.sum ≤ B ∨ (c.length = 1 ∧ B < c.sum)) := by
  intro rest
  induction rest with
  | nil =>
    intro cur curSum hsum hbound c hc
    by_cases h : cur = []
    · simp [greedyChunks, h] at hc
    · simp only [greedyChunks, if_neg h, List.mem_singleton] at hc
      subst hc
      refine ⟨by simpa using h, ?_⟩
      rcases le_or_lt cur.reverse.sum B with hle | hgt
      · exact Or.inl hle
      · refine Or.inr ⟨?_, hgt⟩
        have hlen : cur.length ≠ 0 := fun h0 => h (List.length_eq_zero.mp h0)
        have h1 : ¬ 2 ≤ cur.length := by
          intro h2
          have := hbound h2
          rw [hsum] at this
          exact absurd (by simpa [List.sum_reverse] using this) (not_le.mpr hgt)
        have : cur.length = 1 := by omega
        simpa [List.length_reverse] using this
  | cons k rest ih =>
    intro cur curSum hsum hbound c hc
    by_cases h : cur = []
    · rw [greedyChunks, if_pos h] at hc
      exact ih [k] k (by simp) (by simp) c hc
    · by_cases h2 : curSum + k ≤ B
      · rw [greedyChunks, if_neg h, if_pos h2] at hc
        refine ih (k :: cur) (curSum + k) (by simp [hsum, add_comm]) (fun _ => h2) c hc
      · rw [greedyChunks, if_neg h, if_neg h2] at hc
        rcases List.mem_cons.mp hc with hc | hc
        · subst hc
          refine ⟨by simpa using h, ?_⟩
          rcases le_or_lt cur.reverse.sum B with hle | hgt
          · exact Or.inl hle
          · refine Or.inr ⟨?_, hgt⟩
            have hlen : cur.length ≠ 0 := fun h0 => h (List.length_eq_zero.mp h0)
            have h1 : ¬ 2 ≤ cur.length := by
              intro hx
              have := hbound hx
              rw [hsum] at this
              exact absurd (by simpa [List.sum_reverse] using this) (not_le.mpr hgt)
            have : cur.length = 1 := by omega
            simpa [List.length_reverse] using this
        · exact ih [k] k (by simp) (by simp) c hc

/-- C3: whenever the PartitionPlanner returns a plan, the plan is an ordered
list of contiguous nonempty partitions covering all D dimensions exactly once
(its concatenation is the per-dimension KL list), the per-partition KL values
sum exactly to the total KL, and every partition's KL is at most the budget
except single-dimension partitions whose own KL already exceeds the budget. -/
theorem c3_partition_plan_invariant (kls : List ℚ) (B : ℚ) (plan : List (List ℚ))
    (hplan : partitionPlanner kls B = Except.ok plan) :
    plan.flatten = kls
    ∧ (plan.map List.sum).sum = kls.sum
    ∧ ∀ c ∈ plan, c ≠ [] ∧ (c.sum ≤ B ∨ (c.length = 1 ∧ B < c.sum)) := by
  have hplan' : plan = greedyChunks B [] 0 kls := by
    unfold partitionPlanner at hplan
    split at hplan
    · exact absurd hplan (by simp)
    · exact (Except.ok.injEq _ _ ▸ congrArg id hplan).symm ▸ (Except.ok.inj hplan).symm
  subst hplan'
  have hflat : (greedyChunks B [] 0 kls).flatten = kls := by
    simpa using greedyChunks_flatten B kls [] 0
  refine ⟨hflat, ?_, ?_⟩
  · rw [← List.sum_flatten, hflat]
  · exact greedyChunks_chunk_sound B kls [] 0 (by simp) (by simp) 

/-- C3 witness: a concrete three-dimensional KL list with budget 1 produces
the plan [[1/2],[3/4],[10]], which satisfies every conjunct. -/
theorem c3_witness :
    ([[ (1:ℚ)/2 ], [ (3:ℚ)/4 ], [ (10:ℚ) ]] : List (List ℚ)).flatten = [1/2, 3/4, 10]
    ∧ (([[ (1:ℚ)/2 ], [ (3:ℚ)/4 ], [ (10:ℚ) ]] : List (List ℚ)).map List.sum).sum
        = ([ (1:ℚ)/2, 3/4, 10 ] : List ℚ).sum
    ∧ ∀ c ∈ ([[ (1:ℚ)/2 ], [ (3:ℚ)/4 ], [ (10:ℚ) ]] : List (List ℚ)),
        c ≠ [] ∧ (c.sum ≤ 1 ∨ (c.length = 1 ∧ 1 < c.sum)) :=
  c3_partition_plan_invariant [1/2, 3/4, 10] 1 [[1/2], [3/4], [10]]
    (by rw [partitionPlanner, if_neg (by simp)]
        exact congrArg Except.ok (by norm_num [greedyChunks]))

/-- C7: the PartitionPlanner fails with ConfigurationError exactly when the
dimensionality is zero or the budget is non-positive, and with a positive
dimension count and budget it returns the greedy plan without error. -/
theorem c7_planner_configuration (kls : List ℚ) (B : ℚ) :
    (partitionPlanner kls B = Except.error CoderError.configurationError
        ↔ kls.length = 0 ∨ B ≤ 0)
    ∧ (0 < kls.length → 0 < B →
        partitionPlanner kls B = Except.ok (greedyChunks B [] 0 kls)) := by
  constructor
  · constructor
    · intro h
      by_contra hcon
      rw [partitionPlanner, if_neg hcon] at h
      exact absurd h (by simp)
    · intro h
      rw [partitionPlanner, if_pos h]
  · intro h1 h2
    rw [partitionPlanner, if_neg (by push_neg; exact ⟨by omega, h2⟩)]

/-- C7 witness: the planner rejects an empty dimension list and a
non-positive budget, and accepts a concrete valid input. -/
theorem c7_witness :
    partitionPlanner [] (1:ℚ) = Except.error CoderError.configurationError
    ∧ partitionPlanner [(3:ℚ)] 0 = Except.error CoderError.configurationError
    ∧ partitionPlanner [(3:ℚ)] 2 = Except.ok [[(3:ℚ)]] :=
  ⟨(c7_planner_configuration [] 1).1.mpr (Or.inl rfl),
   (c7_planner_configuration [(3:ℚ)] 0).1.mpr (Or.inr le_rfl),
   ((c7_planner_configuration [(3:ℚ)] 2).2 (by norm_num) (by norm_num)).trans
     (congrArg Except.ok (by norm_num [greedyChunks]))⟩

theorem range_map_shift (g : ℕ → ℚ) (j n : ℕ) :
    (List.range (n + 1)).map (fun i => g (j + i))
      = g j :: (List.range n).map (fun i => g (j + 1 + i)) := by
  rw [List.range_succ_eq_map, List.map_cons, List.map_map]
  refine congrArg₂ List.cons (by simp) (List.map_congr_left ?_)
  intro x hx
  simp only [Function.comp_apply]
  congr 1
  omega

theorem refill_succ (gen : ℕ → ℚ) (c next : ℕ) :
    refill gen (c + 1) next = gen next :: refill gen c (next + 1) := by
  unfold refill
  exact range_map_shift gen next c

theorem poolNext_valid (gen : ℕ → ℚ) (cap : ℕ) (s : BufferState) (j : ℕ)
    (h : PoolValid gen s j) :
    (poolNext gen cap s).1 = gen j ∧ PoolValid gen (poolNext gen cap s).2 (j + 1) := by
  obtain ⟨m, hbuf, hnext⟩ := h
  obtain ⟨buf, nxt⟩ := s
  simp only at hbuf hnext
  subst hbuf hnext
  cases m with
  | zero =>
    cases cap with
    | zero =>
      constructor
      · simp [poolNext, refill]
      · exact ⟨0, by simp [poolNext, refill], by simp [poolNext, refill]⟩
    | succ c =>
      have hr' : List.map (fun i => gen (j + i)) (List.range (c + 1))
          = gen j :: List.map (fun i => gen (j + 1 + i)) (List.range c) := by
        simpa [refill] using refill_succ gen c j
      constructor
      · simp [poolNext, refill, hr']
      · exact ⟨c, by simp [poolNext, refill, hr'],
          by simp [poolNext, refill, hr']; omega⟩
  | succ m =>
    have hb : (List.range (m + 1)).map (fun i => gen (j + i))
        = gen j :: refill gen m (j + 1) := by
      simpa [refill] using range_map_shift gen j m
    constructor
    · simp [poolNext, hb]
    · exact ⟨m, by simp [poolNext, hb, refill], by simp [poolNext, hb]; omega⟩

theorem poolStream_valid (gen : ℕ → ℚ) (cap : ℕ) :
    ∀ (n : ℕ) (s : BufferState) (j : ℕ), PoolValid gen s j →
      poolStream gen cap s n = (List.range n).map (fun i => gen (j + i)) := by
  intro n
  induction n with
  | zero => intro s j _; simp [poolStream]
  | succ n ih =>
    intro s j hv
    obtain ⟨h1, h2⟩ := poolNext_valid gen cap s j hv
    rw [poolStream, range_map_shift gen j n, ← h1, ih (poolNext gen cap s).2 (j + 1) h2]

theorem poolStream_fresh (gen : ℕ → ℚ) (cap n : ℕ) :
    poolStream gen cap { buf := [], next := 0 } n = (List.range n).map gen := by
  have h := poolStream_valid gen cap n { buf := [], next := 0 } 0 ⟨0, by simp, by simp⟩
  simpa using h

theorem getD_map_range (g : ℕ → ℚ) (n k : ℕ) (h : k < n) :
    ((List.range n).map g).getD k 0 = g k := by
  rw [List.getD_eq_getElem?_getD, List.getElem?_map, List.getElem?_range h]
  rfl

/-- C8: SamplerBufferPool transparency - for every key (seed, partition), the
stream of logical draws served through a buffer of any capacity equals the
stream the underlying DeterministicSampler produces directly, for candidates
and uniforms alike; hence the k-th logical draw is independent of where
refill boundaries fall, and two consumers of the same key reading the same
prefix through buffers of different capacities see identical values. -/
theorem c8_buffer_pool_transparency (sampler : ℕ → ℕ → ℕ → ℚ × ℚ)
    (seed p capC capU n k : ℕ) (hk : k < n) :
    poolStream (fun i => (sampler seed p i).1) capC { buf := [], next := 0 } n
        = (List.range n).map (fun i => (sampler seed p i).1)
    ∧ poolStream (fun i => (sampler seed p i).2) capU { buf := [], next := 0 } n
        = (List.range n).map (fun i => (sampler seed p i).2)
    ∧ (poolStream (fun i => (sampler seed p i).1) capC { buf := [], next := 0 } n).getD k 0
        = (sampler seed p k).1
    ∧ poolStream (fun i => (sampler seed p i).1) capC { buf := [], next := 0 } n
        = poolStream (fun i => (sampler seed p i).1) capU { buf := [], next := 0 } n := by
  have h1 := poolStream_fresh (fun i => (sampler seed p i).1) capC n
  have h2 := poolStream_fresh (fun i => (sampler seed p i).2) capU n
  have h3 := poolStream_fresh (fun i => (sampler seed p i).1) capU n
  refine ⟨h1, h2, ?_, h1.trans h3.symm⟩
  rw [h1, getD_map_range _ n k hk]

/-- C8 witness: instantiation at a concrete sampler, capacities 2 and 5, a
five-draw prefix and its third draw. -/
theorem c8_witness :
    poolStream (fun i => ((fun _ _ i => ((i : ℚ), (i : ℚ) + 1/2)) 7 3 i).1) 2
        { buf := [], next := 0 } 5
      = (List.range 5).map (fun i => ((fun _ _ i => ((i : ℚ), (i : ℚ) + 1/2)) 7 3 i).1)
    ∧ poolStream (fun i => ((fun _ _ i => ((i : ℚ), (i : ℚ) + 1/2)) 7 3 i).2) 5
        { buf := [], next := 0 } 5
      = (List.range 5).map (fun i => ((fun _ _ i => ((i : ℚ), (i : ℚ) + 1/2)) 7 3 i).2)
    ∧ (poolStream (fun i => ((fun _ _ i => ((i : ℚ), (i : ℚ) + 1/2)) 7 3 i).1) 2
        { buf := [], next := 0 } 5).getD 2 0
      = (((fun _ _ i => ((i : ℚ), (i : ℚ) + 1/2)) 7 3 2 : ℚ × ℚ)).1
    ∧ poolStream (fun i => ((fun _ _ i => ((i : ℚ), (i : ℚ) + 1/2)) 7 3 i).1) 2
        { buf := [], next := 0 } 5
      = poolStream (fun i => ((fun _ _ i => ((i : ℚ), (i : ℚ) + 1/2)) 7 3 i).1) 5
        { buf := [], next := 0 } 5 :=
  c8_buffer_pool_transparency (fun _ _ i => ((i : ℚ), (i : ℚ) + 1/2)) 7 3 2 5 5 2
    (by decide)

theorem rsLoop_some (d : ℕ → ℚ × ℚ) (a : ℚ → ℚ → Bool) :
    ∀ (fuel k k₀ : ℕ) (x : ℚ), rsLoop d a k fuel = some (k₀, x) →
      x = (d k₀).1 ∧ k ≤ k₀ ∧ k₀ < k + fuel := by
  intro fuel
  induction fuel with
  | zero => intro k k₀ x h; simp [rsLoop] at h
  | succ fuel ih =>
    intro k k₀ x h
    simp only [rsLoop] at h
    by_cases ha : a (d k).1 (d k).2
    · rw [if_pos ha] at h
      have h' := Option.some.inj h
      have h1 : k = k₀ := congrArg Prod.fst h'
      subst h1
      exact ⟨(congrArg Prod.snd h').symm, le_rfl, by omega⟩
    · rw [if_neg ha] at h
      obtain ⟨h1, h2, h3⟩ := ih (k + 1) k₀ x h
      exact ⟨h1, by omega, by omega⟩

theorem rsLoop_first (d : ℕ → ℚ × ℚ) (a : ℚ → ℚ → Bool) (k₀ : ℕ)
    (hacc : a (d k₀).1 (d k₀).2 = true) :
    ∀ (fuel k : ℕ), k ≤ k₀ → k₀ < k + fuel →
      (∀ j, k ≤ j → j < k₀ → a (d j).1 (d j).2 = false) →
      rsLoop d a k fuel = some (k₀, (d k₀).1) := by
  intro fuel
  induction fuel with
  | zero => intro k h1 h2 _; omega
  | succ fuel ih =>
    intro k h1 h2 hmin
    simp only [rsLoop]
    by_cases hk : k = k₀
    · subst hk; rw [if_pos hacc]
    · rw [if_neg (by simp [hmin k le_rfl (by omega)])]
      exact ih (k + 1) (by omega) (by omega) (fun j hj1 hj2 => hmin j (by omega) hj2)

theorem rsLoop_none (d : ℕ → ℚ × ℚ) (a : ℚ → ℚ → Bool) :
    ∀ (fuel k : ℕ),
      (∀ j, k ≤ j → j < k + fuel → a (d j).1 (d j).2 = false) →
      rsLoop d a k fuel = none := by
  intro fuel
  induction fuel with
  | zero => intro k _; simp [rsLoop]
  | succ fuel ih =>
    intro k hrej
    simp only [rsLoop]
    rw [if_neg (by simp [hrej k le_rfl (by omega)])]
    exact ih (k + 1) (fun j hj1 hj2 => hrej j (by omega) (by omega))

theorem encodePartition_sample (d : ℕ → ℚ × ℚ) (a : ℚ → ℚ → Bool) (cap : ℕ) :
    (encodePartition d a cap).2.1 = (d ((encodePartition d a cap).1)).1 := by
  unfold encodePartition
  cases h : rsLoop d a 0 cap with
  | none => simp
  | some r =>
    obtain ⟨k₀, x⟩ := r
    simpa using (rsLoop_some d a cap 0 k₀ x h).1

theorem encodePartition_index_lt (d : ℕ → ℚ × ℚ) (a : ℚ → ℚ → Bool) (cap : ℕ)
    (hcap : 0 < cap) : (encodePartition d a cap).1 < cap := by
  unfold encodePartition
  cases h : rsLoop d a 0 cap with
  | none => simpa using by omega
  | some r =>
    obtain ⟨k₀, x⟩ := r
    have := (rsLoop_some d a cap 0 k₀ x h).2.2
    simpa using by omega

theorem encodePartition_forced (d : ℕ → ℚ × ℚ) (a : ℚ → ℚ → Bool) (cap : ℕ)
    (hrej : ∀ k, k < cap → a (d k).1 (d k).2 = false) :
    encodePartition d a cap = (cap - 1, (d (cap - 1)).1, true) := by
  unfold encodePartition
  rw [rsLoop_none d a cap 0 (fun j _ hj2 => hrej j (by omega))]

theorem encodePartition_accept (d : ℕ → ℚ × ℚ) (a : ℚ → ℚ → Bool) (cap k₀ : ℕ)
    (hk : k₀ < cap) (hacc : a (d k₀).1 (d k₀).2 = true)
    (hmin : ∀ j, j < k₀ → a (d j).1 (d j).2 = false) :
    encodePartition d a cap = (k₀, (d k₀).1, false) := by
  unfold encodePartition
  rw [rsLoop_first d a k₀ hacc cap 0 (by omega) (by omega) (fun j _ hj2 => hmin j hj2)]

theorem rsDecodeFrom_getD (sampler : ℕ → ℕ → ℕ → ℚ × ℚ) (seed : ℕ) :
    ∀ (idxs : List ℕ) (p₀ p : ℕ), p < idxs.length →
      (rsDecodeFrom sampler seed p₀ idxs).getD p 0
        = (sampler seed (p₀ + p) (idxs.getD p 0)).1 := by
  intro idxs
  induction idxs with
  | nil => intro p₀ p hp; simp at hp
  | cons i rest ih =>
    intro p₀ p hp
    cases p with
    | zero => simp [rsDecodeFrom]
    | succ p =>
      simp only [rsDecodeFrom, List.getD_cons_succ]
      rw [ih (p₀ + 1) p (by simpa using hp)]
      have h : p₀ + 1 + p = p₀ + (p + 1) := by omega
      rw [h]

theorem rsDecodeFrom_map_range (sampler : ℕ → ℕ → ℕ → ℚ × ℚ) (seed : ℕ) :
    ∀ (n : ℕ) (f : ℕ → ℕ) (p₀ : ℕ),
      rsDecodeFrom sampler seed p₀ ((List.range n).map f)
        = (List.range n).map (fun q => (sampler seed (p₀ + q) (f q)).1) := by
  intro n
  induction n with
  | zero => intro f p₀; simp [rsDecodeFrom]
  | succ n ih =>
    intro f p₀
    rw [List.range_succ_eq_map, List.map_cons, List.map_map, List.map_cons, List.map_map]
    rw [rsDecodeFrom, ih (f ∘ Nat.succ) (p₀ + 1)]
    refine congrArg₂ List.cons (by simp) ?_
    refine List.map_congr_left ?_
    intro q hq
    simp only [Function.comp_apply]
    have h : p₀ + 1 + q = p₀ + (q + 1) := by omega
    rw [h]

/-- C4: forced-accept termination of the RejectionCoder - for every partition
the per-partition encoding draws at most the configured maximum number of
draws (its index stays below the cap); when every allowed draw is rejected it
terminates via a forced accept of the last drawn candidate, reported through
the forced-accept metric of the full encode rather than an exception. -/
theorem c4_forced_accept_termination (sampler : ℕ → ℕ → ℕ → ℚ × ℚ)
    (w : ℕ → ℚ → ℚ) (M : ℕ → ℚ) (seed p numP cap : ℕ)
    (hcap : 0 < cap) (hp : p < numP)
    (hrej : ∀ k, k < cap →
      rsAccept (w p) (M p) (sampler seed p k).1 (sampler seed p k).2 = false) :
    (encodePartition (sampler seed p) (rsAccept (w p) (M p)) cap).1 < cap
    ∧ encodePartition (sampler seed p) (rsAccept (w p) (M p)) cap
        = (cap - 1, (sampler seed p (cap - 1)).1, true)
    ∧ 0 < rsForcedCount sampler w M seed numP cap := by
  have hforced := encodePartition_forced (sampler seed p) (rsAccept (w p) (M p)) cap hrej
  refine ⟨encodePartition_index_lt _ _ _ hcap, hforced, ?_⟩
  unfold rsForcedCount rsEncodeParts
  have hmem : encodePartition (sampler seed p) (rsAccept (w p) (M p)) cap
      ∈ (List.range numP).map
          (fun q => encodePartition (sampler seed q) (rsAccept (w q) (M q)) cap) :=
    List.mem_map.mpr ⟨p, List.mem_range.mpr hp, rfl⟩
  have hflag : (encodePartition (sampler seed p) (rsAccept (w p) (M p)) cap).2.2 = true := by
    rw [hforced]
  exact List.length_pos.mpr
    (List.ne_nil_of_mem (List.mem_filter.mpr ⟨hmem, by simp [hflag]⟩))

/-- C4 witness: a one-partition encode with cap 2 where every draw is
rejected - the index stays below the cap, the partition ends in a forced
accept and the forced-accept metric is positive. -/
theorem c4_witness :
    (encodePartition ((fun (_ _ k : ℕ) => ((k : ℚ), (1 : ℚ))) 9 0)
        (rsAccept ((fun (_ : ℕ) (_ : ℚ) => (0 : ℚ)) 0) ((fun (_ : ℕ) => (1 : ℚ)) 0)) 2).1 < 2
    ∧ encodePartition ((fun (_ _ k : ℕ) => ((k : ℚ), (1 : ℚ))) 9 0)
        (rsAccept ((fun (_ : ℕ) (_ : ℚ) => (0 : ℚ)) 0) ((fun (_ : ℕ) => (1 : ℚ)) 0)) 2
        = (1, ((fun (_ _ k : ℕ) => ((k : ℚ), (1 : ℚ))) 9 0 1).1, true)
    ∧ 0 < rsForcedCount (fun (_ _ k : ℕ) => ((k : ℚ), (1 : ℚ)))
        (fun (_ : ℕ) (_ : ℚ) => (0 : ℚ)) (fun (_ : ℕ) => (1 : ℚ)) 9 1 2 :=
  c4_forced_accept_termination (fun (_ _ k : ℕ) => ((k : ℚ), (1 : ℚ)))
    (fun (_ : ℕ) (_ : ℚ) => (0 : ℚ)) (fun (_ : ℕ) => (1 : ℚ))
    9 0 1 2 (by omega) (by omega)
    (fun k _ => by norm_num [rsAccept])

/-- C5: the RejectionCoder per-partition acceptance rule - with the
importance ratio w = density_T/density_P and the bound M_p derived from the
injected VarianceRatioStats, the partition encoding accepts the first draw
index whose uniform satisfies u ≤ w(x)/M_p and emits that index together
with its candidate; decode replays the deterministic stream and returns the
candidate at the transmitted index directly, with no acceptance test. -/
theorem c5_acceptance_rule (sampler : ℕ → ℕ → ℕ → ℚ × ℚ)
    (densT densP : ℕ → ℚ → ℚ) (deriveM : VarianceRatioStats → ℕ → ℚ)
    (stats : VarianceRatioStats) (seed p cap k₀ : ℕ) (idxs : List ℕ)
    (hk : k₀ < cap)
    (hacc : rsAccept (importanceRatio (densT p) (densP p)) (deriveM stats p)
        (sampler seed p k₀).1 (sampler seed p k₀).2 = true)
    (hmin : ∀ j, j < k₀ →
      rsAccept (importanceRatio (densT p) (densP p)) (deriveM stats p)
        (sampler seed p j).1 (sampler seed p j).2 = false)
    (hp : p < idxs.length) (hik : idxs.getD p 0 = k₀) :
    encodePartition (sampler seed p)
        (rsAccept (importanceRatio (densT p) (densP p)) (deriveM stats p)) cap
      = (k₀, (sampler seed p k₀).1, false)
    ∧ (rsDecode sampler seed idxs).getD p 0 = (sampler seed p k₀).1 := by
  refine ⟨encodePartition_accept _ _ cap k₀ hk hacc hmin, ?_⟩
  unfold rsDecode
  rw [rsDecodeFrom_getD sampler seed idxs 0 p hp, hik]
  simp

/-- C5 witness: with unit densities, bound 1 and a uniform of 0, draw 0 is
accepted immediately; decoding the index list [0] at partition 0 returns the
draw at index 0. -/
theorem c5_witness :
    encodePartition ((fun (_ _ k : ℕ) => ((k : ℚ), (0 : ℚ))) 3 0)
        (rsAccept (importanceRatio ((fun (_ : ℕ) (_ : ℚ) => (1 : ℚ)) 0)
            ((fun (_ : ℕ) (_ : ℚ) => (1 : ℚ)) 0))
          ((fun (_ : VarianceRatioStats) (_ : ℕ) => (1 : ℚ)) (initStats 1 (1/2)) 0)) 4
      = (0, ((fun (_ _ k : ℕ) => ((k : ℚ), (0 : ℚ))) 3 0 0).1, false)
    ∧ (rsDecode (fun (_ _ k : ℕ) => ((k : ℚ), (0 : ℚ))) 3 [0]).getD 0 0
      = ((fun (_ _ k : ℕ) => ((k : ℚ), (0 : ℚ))) 3 0 0).1 :=
  c5_acceptance_rule (fun (_ _ k : ℕ) => ((k : ℚ), (0 : ℚ)))
    (fun (_ : ℕ) (_ : ℚ) => (1 : ℚ)) (fun (_ : ℕ) (_ : ℚ) => (1 : ℚ))
    (fun (_ : VarianceRatioStats) (_ : ℕ) => (1 : ℚ)) (initStats 1 (1/2)) 3 0 4 0 [0]
    (by omega)
    (by norm_num [rsAccept, importanceRatio])
    (fun j hj => by omega)
    (by simp)
    (by simp)

theorem beamDecodeFrom_append (bdraw : ℕ → List ℕ → ℕ → ℚ × ℚ) :
    ∀ (idxs : List ℕ) (p : ℕ) (h : List ℕ) (j : ℕ),
      beamDecodeFrom bdraw p h (idxs ++ [j])
        = beamDecodeFrom bdraw p h idxs
          ++ [(bdraw (p + idxs.length) (h ++ idxs) j).1] := by
  intro idxs
  induction idxs with
  | nil => intro p h j; simp [beamDecodeFrom]
  | cons i rest ih =>
    intro p h j
    simp only [List.cons_append, beamDecodeFrom, List.length_cons, List.append_eq]
    rw [ih (p + 1) (h ++ [i]) j]
    have e1 : p + 1 + rest.length = p + (rest.length + 1) := by omega
    have e2 : (h ++ [i]) ++ rest = h ++ (i :: rest) := by simp
    rw [e1, e2]

theorem extendBeam_consistent (bdraw : ℕ → List ℕ → ℕ → ℚ × ℚ) (logw : ℕ → ℚ → ℚ)
    (K n : ℕ) (b : BeamState) (hb : BeamConsistent bdraw b n) :
    ∀ b' ∈ extendBeam bdraw logw K n b, BeamConsistent bdraw b' (n + 1) := by
  intro b' hb'
  unfold extendBeam at hb'
  simp only [List.mem_map, List.mem_range] at hb'
  obtain ⟨j, hj, rfl⟩ := hb'
  obtain ⟨hlen, hdec⟩ := hb
  refine ⟨by simp [hlen], ?_⟩
  show beamDecodeFrom bdraw 0 [] (b.history ++ [j]) = _
  rw [beamDecodeFrom_append, hdec, hlen]
  simp

theorem mem_insertByScore (b c : BeamState) :
    ∀ l, c ∈ insertByScore b l ↔ c = b ∨ c ∈ l := by
  intro l
  induction l with
  | nil => simp [insertByScore]
  | cons d ds ih =>
    unfold insertByScore
    by_cases h : b.score < d.score
    · rw [if_pos h]
      simp only [List.mem_cons, ih]
      tauto
    · rw [if_neg h]
      simp [List.mem_cons]

theorem mem_sortByScore (c : BeamState) :
    ∀ l : List BeamState, c ∈ l.foldr insertByScore [] ↔ c ∈ l := by
  intro l
  induction l with
  | nil => simp
  | cons d ds ih => simp [List.foldr_cons, mem_insertByScore, ih]

theorem mem_selectTop (W : ℕ) (l : List BeamState) (c : BeamState)
    (h : c ∈ selectTop W l) : c ∈ l := by
  unfold selectTop at h
  exact (mem_sortByScore c l).mp (List.mem_of_mem_take h)

theorem beamStep_consistent (bdraw : ℕ → List ℕ → ℕ → ℚ × ℚ) (logw : ℕ → ℚ → ℚ)
    (K W n : ℕ) (beams : List BeamState)
    (hall : ∀ b ∈ beams, BeamConsistent bdraw b n) :
    ∀ b' ∈ beamStep bdraw logw K W n beams, BeamConsistent bdraw b' (n + 1) := by
  intro b' hb'
  have hmem := mem_selectTop W _ b' hb'
  rw [List.mem_flatMap] at hmem
  obtain ⟨b, hb, hext⟩ := hmem
  exact extendBeam_consistent bdraw logw K n b (hall b hb) b' hext

theorem beamSearch_consistent (bdraw : ℕ → List ℕ → ℕ → ℚ × ℚ) (logw : ℕ → ℚ → ℚ)
    (K W : ℕ) : ∀ numP, ∀ b ∈ beamSearch bdraw logw K W numP,
      BeamConsistent bdraw b numP := by
  intro numP
  induction numP with
  | zero =>
    intro b hb
    simp only [beamSearch, List.range_zero, List.foldl_nil, List.mem_singleton] at hb
    subst hb
    exact ⟨rfl, rfl⟩
  | succ n ih =>
    intro b hb
    unfold beamSearch at hb
    rw [List.range_succ, List.foldl_append, List.foldl_cons, List.foldl_nil] at hb
    exact beamStep_consistent bdraw logw K W n (beamSearch bdraw logw K W n) ih b hb

theorem rsDecode_rsEncode (sampler : ℕ → ℕ → ℕ → ℚ × ℚ) (w : ℕ → ℚ → ℚ) (M : ℕ → ℚ)
    (seed numP cap : ℕ) :
    rsDecode sampler seed (rsEncode sampler w M seed numP cap).1
      = (rsEncode sampler w M seed numP cap).2 := by
  unfold rsEncode rsDecode rsEncodeParts
  rw [List.map_map, List.map_map]
  rw [rsDecodeFrom_map_range sampler seed numP _ 0]
  refine List.map_congr_left ?_
  intro p hp
  simp only [Function.comp_apply, Nat.zero_add]
  exact (encodePartition_sample (sampler seed p) (rsAccept (w p) (M p)) cap).symm

/-- C1: round trip - for every sampler, importance weight, bound, seed, cap
and partition count, decoding the indices produced by RejectionCoder.encode
reproduces its sample bit-exactly, and whenever BeamCoder.encode returns
(indices, sample), decoding those indices reproduces that sample
bit-exactly. -/
theorem c1_round_trip (sampler : ℕ → ℕ → ℕ → ℚ × ℚ) (w : ℕ → ℚ → ℚ) (M : ℕ → ℚ)
    (bs : ℕ → ℕ → List ℕ → ℕ → ℚ × ℚ) (logw : ℕ → ℚ → ℚ)
    (seed numP cap K W : ℕ) (idxs : List ℕ) (smpl : List ℚ)
    (hbeam : beamEncodeS bs logw seed K W numP = some (idxs, smpl)) :
    rsDecode sampler seed (rsEncode sampler w M seed numP cap).1
        = (rsEncode sampler w M seed numP cap).2
    ∧ beamDecodeS bs seed idxs = smpl := by
  refine ⟨rsDecode_rsEncode sampler w M seed numP cap, ?_⟩
  unfold beamEncodeS beamEncode at hbeam
  cases hh : (beamSearch (fun p h j => bs seed p h j) logw K W numP).head? with
  | none => rw [hh] at hbeam; simp at hbeam
  | some b =>
    rw [hh] at hbeam
    simp only [Option.map_some', Option.some.injEq, Prod.mk.injEq] at hbeam
    obtain ⟨h1, h2⟩ := hbeam
    have hmem : b ∈ beamSearch (fun p h j => bs seed p h j) logw K W numP := by
      cases hl : beamSearch (fun p h j => bs seed p h j) logw K W numP with
      | nil => rw [hl] at hh; simp at hh
      | cons x xs =>
        rw [hl] at hh
        simp only [List.head?_cons, Option.some.injEq] at hh
        rw [← hh]
        exact List.mem_cons_self x xs
    have hc := beamSearch_consistent (fun p h j => bs seed p h j) logw K W numP b hmem
    unfold beamDecodeS beamDecode
    rw [← h1, hc.2]
    exact h2

/-- C1 witness: concrete one-partition instantiation - rejection round trip
holds and the beam coder returns ([0], [0]), which decodes back to [0]. -/
theorem c1_witness :
    rsDecode (fun (_ _ k : ℕ) => ((k : ℚ), (0 : ℚ))) 42
        (rsEncode (fun (_ _ k : ℕ) => ((k : ℚ), (0 : ℚ))) (fun (_ : ℕ) (_ : ℚ) => (1 : ℚ))
          (fun (_ : ℕ) => (1 : ℚ)) 42 1 3).1
      = (rsEncode (fun (_ _ k : ℕ) => ((k : ℚ), (0 : ℚ))) (fun (_ : ℕ) (_ : ℚ) => (1 : ℚ))
          (fun (_ : ℕ) => (1 : ℚ)) 42 1 3).2
    ∧ beamDecodeS (fun (_ _ : ℕ) (_ : List ℕ) (j : ℕ) => ((j : ℚ), (0 : ℚ))) 42 [0]
      = [(0 : ℚ)] :=
  c1_round_trip (fun (_ _ k : ℕ) => ((k : ℚ), (0 : ℚ))) (fun (_ : ℕ) (_ : ℚ) => (1 : ℚ))
    (fun (_ : ℕ) => (1 : ℚ)) (fun (_ _ : ℕ) (_ : List ℕ) (j : ℕ) => ((j : ℚ), (0 : ℚ)))
    (fun (_ : ℕ) (_ : ℚ) => (0 : ℚ)) 42 1 3 1 1 [0] [(0 : ℚ)]
    (by
      have h1 : List.range 1 = [0] := rfl
      simp only [beamEncodeS, beamEncode, beamSearch, h1, List.foldl_cons, List.foldl_nil]
      simp only [beamStep, List.flatMap_cons, List.flatMap_nil, extendBeam, h1, List.map_cons,
        List.map_nil, List.append_nil, selectTop, List.foldr_cons, List.foldr_nil,
        insertByScore, List.take_succ_cons, List.take_nil, List.head?_cons, Option.map_some']
      simp [initBeam])

/-- C2: determinism - with identical inputs and identical VarianceRatioStats
state, RejectionCoder.encode returns identical (indices, sample) across
repeated calls, and the seeded draw stream consumed by encode coincides with
the draw stream regenerated by decode for every partition and draw counter. -/
theorem c2_determinism (sampler : ℕ → ℕ → ℕ → ℚ × ℚ) (w : ℕ → ℚ → ℚ)
    (deriveM : VarianceRatioStats → ℕ → ℚ) (stats₁ stats₂ : VarianceRatioStats)
    (seed numP cap p k : ℕ) (h : stats₁ = stats₂) :
    rsEncodeWithStats sampler w deriveM stats₁ seed numP cap
        = rsEncodeWithStats sampler w deriveM stats₂ seed numP cap
    ∧ rsEncodeDraw sampler seed p k = rsDecodeDraw sampler seed p k := by
  subst h
  exact ⟨rfl, rfl⟩

/-- C2 witness: instantiation at a concrete sampler and the initial
VarianceRatioStats state. -/
theorem c2_witness :
    rsEncodeWithStats (fun (_ _ k : ℕ) => ((k : ℚ), (0 : ℚ))) (fun (_ : ℕ) (_ : ℚ) => (1 : ℚ))
        (fun (_ : VarianceRatioStats) (_ : ℕ) => (2 : ℚ)) (initStats 3 (1/2)) 5 2 4
      = rsEncodeWithStats (fun (_ _ k : ℕ) => ((k : ℚ), (0 : ℚ))) (fun (_ : ℕ) (_ : ℚ) => (1 : ℚ))
        (fun (_ : VarianceRatioStats) (_ : ℕ) => (2 : ℚ)) (initStats 3 (1/2)) 5 2 4
    ∧ rsEncodeDraw (fun (_ _ k : ℕ) => ((k : ℚ), (0 : ℚ))) 5 1 7
      = rsDecodeDraw (fun (_ _ k : ℕ) => ((k : ℚ), (0 : ℚ))) 5 1 7 :=
  c2_determinism (fun (_ _ k : ℕ) => ((k : ℚ), (0 : ℚ))) (fun (_ : ℕ) (_ : ℚ) => (1 : ℚ))
    (fun (_ : VarianceRatioStats) (_ : ℕ) => (2 : ℚ)) (initStats 3 (1/2)) (initStats 3 (1/2))
    5 2 4 1 7 rfl

theorem partitionCodelength_nonneg (M : ℝ) (hM : 1 < M) (i : ℕ) :
    0 ≤ partitionCodelength M i := by
  unfold partitionCodelength
  have hM0 : (0 : ℝ) < M := by linarith
  have h0 : (0 : ℝ) < 1 / M := by positivity
  have h1 : 1 / M ≤ 1 := by
    rw [div_le_one hM0]; linarith
  have h2 : (0 : ℝ) ≤ 1 - 1 / M := by linarith
  have h3 : (1 - 1 / M) ^ i ≤ 1 := pow_le_one₀ h2 (by linarith)
  have hx0 : (0 : ℝ) ≤ (1 - 1 / M) ^ i * (1 / M) := by positivity
  have hx1 : (1 - 1 / M) ^ i * (1 / M) ≤ 1 := by
    calc (1 - 1 / M) ^ i * (1 / M) ≤ 1 * 1 :=
          mul_le_mul h3 h1 (le_of_lt h0) zero_le_one
    _ = 1 := one_mul 1
  have := Real.logb_nonpos (b := 2) (by norm_num) hx0 hx1
  linarith

theorem partitionCodelength_strictMono (M : ℝ) (hM : 1 < M) (i j : ℕ) (hij : i < j) :
    partitionCodelength M i < partitionCodelength M j := by
  unfold partitionCodelength
  have hM0 : (0 : ℝ) < M := by linarith
  have h1 : (0 : ℝ) < 1 / M := by positivity
  have hlt : 1 - 1 / M < 1 := by linarith
  have hpos : (0 : ℝ) < 1 - 1 / M := by
    have : 1 / M < 1 := by rw [div_lt_one hM0]; exact hM
    linarith
  have hpow : (1 - 1 / M) ^ j < (1 - 1 / M) ^ i :=
    pow_lt_pow_right_of_lt_one₀ hpos hlt hij
  have hxj : (0 : ℝ) < (1 - 1 / M) ^ j * (1 / M) := by positivity
  have hmul : (1 - 1 / M) ^ j * (1 / M) < (1 - 1 / M) ^ i * (1 / M) :=
    mul_lt_mul_of_pos_right hpow h1
  have := Real.logb_lt_logb (b := 2) (by norm_num) hxj hmul
  linarith

theorem rsCodelengthFrom_nonneg (M : ℕ → ℝ) (hM : ∀ p, 1 < M p) :
    ∀ (idxs : List ℕ) (p : ℕ), 0 ≤ rsCodelengthFrom M p idxs := by
  intro idxs
  induction idxs with
  | nil => intro p; simp [rsCodelengthFrom]
  | cons i rest ih =>
    intro p
    have h1 := partitionCodelength_nonneg (M p) (hM p) i
    have h2 := ih (p + 1)
    simp only [rsCodelengthFrom]
    linarith

theorem rsCodelengthFrom_append (M : ℕ → ℝ) :
    ∀ (pre l : List ℕ) (p : ℕ),
      rsCodelengthFrom M p (pre ++ l)
        = rsCodelengthFrom M p pre + rsCodelengthFrom M (p + pre.length) l := by
  intro pre
  induction pre with
  | nil => intro l p; simp [rsCodelengthFrom]
  | cons i rest ih =>
    intro l p
    simp only [List.cons_append, rsCodelengthFrom, List.length_cons, List.append_eq]
    rw [ih l (p + 1)]
    have h : p + 1 + rest.length = p + (rest.length + 1) := by omega
    rw [h]
    ring

/-- C6: codelength validity - with every per-partition bound above 1, the
RejectionCoder codelength of any index sequence is nonnegative and strictly
increasing in the index at any partition (a larger index yields a strictly
larger total codelength); the BeamCoder codelength of any index sequence is
likewise nonnegative for any candidate count of at least 1. -/
theorem c6_codelength_validity (M : ℕ → ℝ) (K : ℕ) (idxs pre suf : List ℕ) (i j : ℕ)
    (hM : ∀ p, 1 < M p) (hK : 1 ≤ K) (hij : i < j) :
    0 ≤ rsGetCodelength M idxs
    ∧ rsGetCodelength M (pre ++ i :: suf) < rsGetCodelength M (pre ++ j :: suf)
    ∧ 0 ≤ beamGetCodelength K idxs := by
  refine ⟨rsCodelengthFrom_nonneg M hM idxs 0, ?_, ?_⟩
  · unfold rsGetCodelength
    rw [rsCodelengthFrom_append, rsCodelengthFrom_append]
    simp only [rsCodelengthFrom]
    have h1 := partitionCodelength_strictMono (M (0 + pre.length)) (hM (0 + pre.length)) i j hij
    linarith
  · unfold beamGetCodelength
    have h2 : (0 : ℝ) ≤ Real.logb 2 (K : ℝ) :=
      Real.logb_nonneg (by norm_num) (by exact_mod_cast hK)
    exact mul_nonneg (by positivity) h2

/-- C6 witness: with bound 2 everywhere and one partition, the codelength of
[0] is nonnegative, replacing index 0 by index 1 strictly increases it, and
the beam codelength with alphabet size 1 is nonnegative. -/
theorem c6_witness :
    0 ≤ rsGetCodelength (fun _ => (2 : ℝ)) [0]
    ∧ rsGetCodelength (fun _ => (2 : ℝ)) ([] ++ 0 :: [])
        < rsGetCodelength (fun _ => (2 : ℝ)) ([] ++ 1 :: [])
    ∧ 0 ≤ beamGetCodelength 1 [0] :=
  c6_codelength_validity (fun _ => (2 : ℝ)) 1 [0] [] [] 0 1
    (fun _ => by norm_num) le_rfl (by omega)

/-- C9: constructing a ReparameterizedConv2DTranspose with a non-None
output_padding raises ValueError exactly when, on some spatial axis, the
normalized output padding is greater than or equal to the corresponding
stride; with output_padding None the constructor performs no such check and
cannot raise this error. -/
theorem c9_output_padding_check (strides op : PyIntOrPair) :
    (transposeOutputPaddingInit strides (some op) = Except.error PyError.valueError
      ↔ (normalizeTuple2 strides).1 ≤ (normalizeTuple2 op).1
        ∨ (normalizeTuple2 strides).2 ≤ (normalizeTuple2 op).2)
    ∧ transposeOutputPaddingInit strides none = Except.ok none := by
  refine ⟨?_, rfl⟩
  by_cases h : (normalizeTuple2 strides).1 ≤ (normalizeTuple2 op).1
      ∨ (normalizeTuple2 strides).2 ≤ (normalizeTuple2 op).2
  · simp [transposeOutputPaddingInit, h]
  · simp [transposeOutputPaddingInit, h]

/-- C9 witness: output padding 1 with stride 1 raises ValueError; with
output_padding None no error is possible; stride 2 with output padding 1
passes the check. -/
theorem c9_witness :
    transposeOutputPaddingInit (PyIntOrPair.int 1) (some (PyIntOrPair.int 1))
        = Except.error PyError.valueError
    ∧ transposeOutputPaddingInit (PyIntOrPair.int 1) none = Except.ok none
    ∧ ¬ transposeOutputPaddingInit (PyIntOrPair.int 2) (some (PyIntOrPair.int 1))
        = Except.error PyError.valueError :=
  ⟨(c9_output_padding_check (PyIntOrPair.int 1) (PyIntOrPair.int 1)).1.mpr
      (Or.inl (by decide)),
   (c9_output_padding_check (PyIntOrPair.int 1) (PyIntOrPair.int 1)).2,
   fun h => by
     have := (c9_output_padding_check (PyIntOrPair.int 2) (PyIntOrPair.int 1)).1.mp h
     revert this
     decide⟩

theorem reparamCall_state_fixed (conv : ℚ → ℚ → ℚ) (moments : ℚ → ℚ × ℚ)
    (sqrtFn : ℚ → ℚ) (s : ReparamState) (x : ℚ) (h : s.inited = true) :
    (reparamCall conv moments sqrtFn s x).2 = s := by
  unfold reparamCall
  simp [h]

theorem reparamRun_fixed (conv : ℚ → ℚ → ℚ) (moments : ℚ → ℚ × ℚ) (sqrtFn : ℚ → ℚ) :
    ∀ (xs : List ℚ) (s : ReparamState), s.inited = true →
      reparamRun conv moments sqrtFn s xs = s := by
  intro xs
  induction xs with
  | nil => intro s _; simp [reparamRun]
  | cons y ys ih =>
    intro s h
    show (y :: ys).foldl (fun st x => (reparamCall conv moments sqrtFn st x).2) s = s
    rw [List.foldl_cons, reparamCall_state_fixed conv moments sqrtFn s y h]
    exact ih s h

/-- C10: the data-dependent initialization branch of a reparameterized
convolution runs at most once - after any call the `_initialized` flag is
set; once the flag is set a call leaves the layer state (flag, kernel_scale
and bias) completely untouched and merely applies conv plus bias, so no
sequence of later calls ever re-enters the branch or reassigns kernel_scale
or bias from batch statistics; on the first call the branch assigns
kernel_scale and bias from the batch moments and sets the flag. -/
theorem c10_init_runs_once (conv : ℚ → ℚ → ℚ) (moments : ℚ → ℚ × ℚ) (sqrtFn : ℚ → ℚ)
    (s : ReparamState) (x : ℚ) (xs : List ℚ) :
    (reparamCall conv moments sqrtFn s x).2.inited = true
    ∧ (s.inited = true →
        reparamCall conv moments sqrtFn s x = (conv s.kernelScale x + s.bias, s))
    ∧ (s.inited = true → reparamRun conv moments sqrtFn s xs = s)
    ∧ reparamRun conv moments sqrtFn (reparamCall conv moments sqrtFn s x).2 xs
        = (reparamCall conv moments sqrtFn s x).2
    ∧ (s.inited = false → (reparamCall conv moments sqrtFn s x).2
        = { inited := true
            kernelScale :=
              1 / max (sqrtFn (moments (conv s.kernelScale x)).2) (1 / 10000000)
            bias :=
              -(moments (conv s.kernelScale x)).1
                / max (sqrtFn (moments (conv s.kernelScale x)).2) (1 / 10000000) }) := by
  have hflag : (reparamCall conv moments sqrtFn s x).2.inited = true := by
    unfold reparamCall
    by_cases h : s.inited <;> simp [h]
  refine ⟨hflag, ?_, ?_, ?_, ?_⟩
  · intro h
    unfold reparamCall
    simp [h]
  · intro h
    exact reparamRun_fixed conv moments sqrtFn xs s h
  · exact reparamRun_fixed conv moments sqrtFn xs _ hflag
  · intro h
    unfold reparamCall
    simp [h]

/-- C10 witness: with a concrete layer, a first call from the uninitialized
state sets the flag and the state from batch moments, and an already
initialized state is left untouched by any further calls. -/
theorem c10_witness :
    (reparamCall (fun a b => a * b) (fun o => (o, 1)) (fun v => v)
        { inited := true, kernelScale := 2, bias := 3 } 5).2.inited = true
    ∧ ((true : Bool) = true →
        reparamCall (fun a b => a * b) (fun o => (o, 1)) (fun v => v)
          { inited := true, kernelScale := 2, bias := 3 } 5
        = ((fun (a b : ℚ) => a * b) 2 5 + 3,
           { inited := true, kernelScale := 2, bias := 3 }))
    ∧ ((true : Bool) = true →
        reparamRun (fun a b => a * b) (fun o => (o, 1)) (fun v => v)
          { inited := true, kernelScale := 2, bias := 3 } [1, 2] =
          { inited := true, kernelScale := 2, bias := 3 })
    ∧ reparamRun (fun a b => a * b) (fun o => (o, 1)) (fun v => v)
        (reparamCall (fun a b => a * b) (fun o => (o, 1)) (fun v => v)
          { inited := true, kernelScale := 2, bias := 3 } 5).2 [1, 2]
        = (reparamCall (fun a b => a * b) (fun o => (o, 1)) (fun v => v)
          { inited := true, kernelScale := 2, bias := 3 } 5).2
    ∧ ((true : Bool) = false →
        (reparamCall (fun a b => a * b) (fun o => (o, 1)) (fun v => v)
          { inited := true, kernelScale := 2, bias := 3 } 5).2
        = { inited := true
            kernelScale := 1 / max ((fun (v : ℚ) => v)
              ((fun (o : ℚ) => (o, (1 : ℚ))) ((fun (a b : ℚ) => a * b) 2 5)).2) (1 / 10000000)
            bias := -((fun (o : ℚ) => (o, (1 : ℚ))) ((fun (a b : ℚ) => a * b) 2 5)).1
              / max ((fun (v : ℚ) => v)
              ((fun (o : ℚ) => (o, (1 : ℚ))) ((fun (a b : ℚ) => a * b) 2 5)).2) (1 / 10000000) }) :=
  c10_init_runs_once (fun a b => a * b) (fun o => (o, 1)) (fun v => v)
    { inited := true, kernelScale := 2, bias := 3 } 5 [1, 2]
